import Mathlib

/-
Verification of the `md_selector` terminal checklist (`main.go`).

Strings are modelled as `List Char`; Go `int` is modelled as `Int`.
The terminal screen is external: the selector loop is embedded as a step
function over the state it owns (items, cursor, offset, terminal height),
driven by the key/resize events the Go loop handles.
-/

namespace MdSelector

/-- An entry of the checklist: a Markdown file stem with its checked flag.
Mirrors `type item struct { name string; checked bool }` in `main.go`. -/
structure Item where
  name : List Char
  checked : Bool
deriving DecidableEq, Repr

/-- Go helper `func max(a, b int) int` from `main.go`. -/
def goMax (a b : Int) : Int := if a > b then a else b

/-- `func ensureVisible(cursor, offset, viewHeight, total int) int` from
`main.go`, translated statement by statement: early return on
non-positive view height, scroll up/down to reveal the cursor, then the
two clamping `if`s. -/
def ensureVisible (cursor offset viewHeight total : Int) : Int :=
  if viewHeight ≤ 0 then 0
  else
    let maxOffset := goMax 0 (total - viewHeight)
    let offset1 :=
      if cursor < offset then cursor
      else if cursor ≥ offset + viewHeight then cursor - viewHeight + 1
      else offset
    let offset2 := if offset1 > maxOffset then maxOffset else offset1
    if offset2 < 0 then 0 else offset2

/-- Modelled from the spec's words for comparison with `ensureVisible`:
return 0 when the view height is non-positive, otherwise move the offset
to reveal the cursor and clamp the result into `[0, max 0 (total - viewHeight)]`. -/
def ensureVisibleSpec (cursor offset viewHeight total : Int) : Int :=
  if viewHeight ≤ 0 then 0
  else
    let o :=
      if cursor < offset then cursor
      else if cursor ≥ offset + viewHeight then cursor - viewHeight + 1
      else offset
    max 0 (min (max 0 (total - viewHeight)) o)

/-- Input events the selector loop in `runSelector` distinguishes: the
`tcell.EventKey` cases (Escape, Ctrl-C, Up, Down, Enter, a rune) and a
`tcell.EventResize` carrying the new terminal height; `otherEvent` stands
for any event type the `switch` ignores. -/
inductive Event where
  | keyEscape : Event
  | keyCtrlC : Event
  | keyUp : Event
  | keyDown : Event
  | keyEnter : Event
  | keyRune : Char → Event
  | resize : Int → Event
  | otherEvent : Event
deriving DecidableEq, Repr

/-- State owned by the `runSelector` loop: its private item slice, the
cursor, the offset, and the current terminal height (queried by
`drawScreen` via `screen.Size()`; updated when a resize event arrives). -/
structure SelState where
  items : List Item
  cursor : Int
  offset : Int
  height : Int
deriving DecidableEq, Repr

/-- View height computed by `drawScreen`: terminal height minus the two
header lines, floored at 1 (`if viewHeight < 1 { viewHeight = 1 }`). -/
def viewHeightOf (height : Int) : Int :=
  let vh := height - 2
  if vh < 1 then 1 else vh

/-- Outcome of one loop iteration of `runSelector`: keep looping with a
new state, return the items (`KeyEnter`), or abort (`Escape`, `Ctrl-C`,
`q`, `Q`). -/
inductive StepResult where
  | next : SelState → StepResult
  | committed : List Item → StepResult
  | aborted : StepResult
deriving DecidableEq, Repr

/-- Toggle of `items[i].checked = !items[i].checked` on the model list. -/
def toggleAt : List Item → Nat → List Item
  | [], _ => []
  | it :: rest, 0 => { it with checked := !it.checked } :: rest
  | it :: rest, i + 1 => it :: toggleAt rest i

/-- Shared tail of every `tcell.EventKey` branch that keeps looping:
store the new cursor and items, then
`offset = ensureVisible(cursor, offset, viewHeight, len(items))`, where
the view height is the one returned by the redraw at the top of the
iteration (computed from the current terminal height). -/
def afterKey (s : SelState) (c : Int) (its : List Item) : StepResult :=
  .next { items := its, cursor := c,
          offset := ensureVisible c s.offset (viewHeightOf s.height) its.length,
          height := s.height }

/-- One iteration of the `for` loop in `runSelector` after the redraw:
dispatch on the polled event exactly as the nested `switch` does.  A
resize event runs `screen.Sync()` only — it does not touch cursor or
offset and does not call `ensureVisible`. -/
def step (s : SelState) (e : Event) : StepResult :=
  match e with
  | .keyEscape => .aborted
  | .keyCtrlC => .aborted
  | .keyUp =>
      afterKey s (if s.cursor > 0 then s.cursor - 1 else s.cursor) s.items
  | .keyDown =>
      afterKey s
        (if s.cursor < (s.items.length : Int) - 1 then s.cursor + 1 else s.cursor)
        s.items
  | .keyEnter => .committed s.items
  | .keyRune ch =>
      if ch = 'q' ∨ ch = 'Q' then .aborted
      else if ch = 'k' then
        afterKey s (if s.cursor > 0 then s.cursor - 1 else s.cursor) s.items
      else if ch = 'j' then
        afterKey s
          (if s.cursor < (s.items.length : Int) - 1 then s.cursor + 1 else s.cursor)
          s.items
      else if ch = ' ' then
        afterKey s s.cursor
          (if 0 < s.items.length then toggleAt s.items s.cursor.toNat else s.items)
      else afterKey s s.cursor s.items
  | .resize h => .next { s with height := h }
  | .otherEvent => .next s

/-- State at loop entry: `runSelector` copies the caller's slice into its
own (`items := make(...); copy(items, initial)`) and starts with
`cursor := 0`, `offset := 0`; `h0` is the initial terminal height. -/
def initState (initial : List Item) (h0 : Int) : SelState :=
  { items := initial, cursor := 0, offset := 0, height := h0 }

/-- Result of running the loop on a finite list of events: still blocked
waiting for the next event, committed with the final items, or aborted. -/
inductive RunResult where
  | running : SelState → RunResult
  | committed : List Item → RunResult
  | aborted : RunResult
deriving DecidableEq, Repr

/-- Run the selector loop over a list of events. -/
def runEvents : SelState → List Event → RunResult
  | s, [] => .running s
  | s, e :: rest =>
      match step s e with
      | .next s2 => runEvents s2 rest
      | .committed its => .committed its
      | .aborted => .aborted

/-- Decidable equality for `Except`, used to evaluate reconciliation
results on concrete inputs. -/
instance {ε α : Type} [DecidableEq ε] [DecidableEq α] :
    DecidableEq (Except ε α)
  | .ok a, .ok b =>
      match decEq a b with
      | .isTrue h => .isTrue (congrArg Except.ok h)
      | .isFalse h => .isFalse (fun hh => h (Except.ok.inj hh))
  | .ok _, .error _ => .isFalse (fun hh => Except.noConfusion hh)
  | .error _, .ok _ => .isFalse (fun hh => Except.noConfusion hh)
  | .error a, .error b =>
      match decEq a b with
      | .isTrue h => .isTrue (congrArg Except.error h)
      | .isFalse h => .isFalse (fun hh => h (Except.error.inj hh))

/-- Whitespace predicate used by Go's `strings.TrimSpace`
(`unicode.IsSpace` restricted to the Latin-1 range: space, tab, newline,
vertical tab, form feed, carriage return, NEL, NBSP). -/
def goIsSpace (c : Char) : Bool :=
  c = ' ' || c = '\t' || c = '\n' || c = '\x0b' || c = '\x0c' || c = '\r' ||
    c.val = 0x85 || c.val = 0xA0

/-- Go `strings.TrimSpace`: drop whitespace from both ends. -/
def goTrimSpace (s : List Char) : List Char :=
  ((s.dropWhile goIsSpace).reverse.dropWhile goIsSpace).reverse

/-- `dropCR` from `bufio` (used by `bufio.ScanLines`): remove one
trailing carriage return. -/
def dropCR (s : List Char) : List Char :=
  if s.getLast? = some '\r' then s.dropLast else s

/-- Token loop of `bufio.Scanner` with the default `ScanLines` split:
`cur` holds the characters of the current line in reverse.  Each `'\n'`
ends a token (with `dropCR` applied); a non-empty remainder at EOF is a
final token; an empty remainder produces none. -/
def scanLinesAux : List Char → List Char → List (List Char)
  | cur, [] => if cur = [] then [] else [dropCR cur.reverse]
  | cur, c :: rest =>
      if c = '\n' then dropCR cur.reverse :: scanLinesAux [] rest
      else scanLinesAux (c :: cur) rest

/-- Lines produced by `bufio.NewScanner(file)` over the file content. -/
def scanLines (s : List Char) : List (List Char) :=
  scanLinesAux [] s

/-- Index lookup in the `index` map of `applyPreviousSelections`
(`map[string]int` filled by ascending iteration, so for a repeated name
the later index overwrites the earlier one): position of the last item
carrying `n`, if any. -/
def lastIdxOf : List Item → List Char → Option Nat
  | [], _ => none
  | it :: rest, n =>
      match lastIdxOf rest n with
      | some j => some (j + 1)
      | none => if it.name = n then some 0 else none

/-- Assignment `items[i].checked = true` on the model list. -/
def setCheckedAt : List Item → Nat → List Item
  | [], _ => []
  | it :: rest, 0 => { it with checked := true } :: rest
  | it :: rest, i + 1 => it :: setCheckedAt rest i

/-- Scanner loop of `applyPreviousSelections`: trim each line, skip
blanks, fail with the offending entry when it is not a catalog name,
otherwise mark the indexed item checked and continue. -/
def applyLines : List Item → List (List Char) → Except (List Char) (List Item)
  | items, [] => .ok items
  | items, line :: rest =>
      let entry := goTrimSpace line
      if entry = [] then applyLines items rest
      else
        match lastIdxOf items entry with
        | none => .error entry
        | some i => applyLines (setCheckedAt items i) rest

/-- `func applyPreviousSelections(items []item, cwd string) ([]item, error)`
from `main.go`, with the filesystem factored out: `content` is the text
of `output.txt`, or `none` when the file does not exist
(`errors.Is(err, os.ErrNotExist)` returns the items unchanged). -/
def applyPreviousSelections (items : List Item) (content : Option (List Char)) :
    Except (List Char) (List Item) :=
  match content with
  | none => .ok items
  | some s => applyLines items (scanLines s)

/-- Modelled from the spec's words for comparison with `applyLines`:
the first (in file order) non-blank trimmed line that matches no
catalog name. -/
def firstUnknown (names : List (List Char)) : List (List Char) → Option (List Char)
  | [] => none
  | line :: rest =>
      let entry := goTrimSpace line
      if entry = [] then firstUnknown names rest
      else if entry ∈ names then firstUnknown names rest
      else some entry

/-- Non-blank trimmed lines of a persisted selection. -/
def nonblankLines (lines : List (List Char)) : List (List Char) :=
  (lines.map goTrimSpace).filter (fun l => !l.isEmpty)

/-- `func writeSelections(items []item, cwd string) (int, error)` from
`main.go`, with the filesystem factored out: the loop appends each
checked item's name plus `'\n'` to the builder and counts it; the
result is the written content and the count. -/
def writeSelections (items : List Item) : List Char × Nat :=
  items.foldl
    (fun acc it =>
      if it.checked then (acc.1 ++ it.name ++ ['\n'], acc.2 + 1) else acc)
    ([], 0)

/-- Content described by the spec for the persistence writer: one line
per checked item, in catalog order, each name followed by `'\n'`. -/
def selectionContent (items : List Item) : List Char :=
  (((items.filter (fun it => it.checked)).map Item.name).map
    (fun n => n ++ ['\n'])).flatten

/-- Number of checked items. -/
def checkedCount (items : List Item) : Nat :=
  (items.filter (fun it => it.checked)).length

/-- ASCII case folding used to model `strings.ToLower` on the names that
occur here. -/
def goToLower (s : List Char) : List Char :=
  s.map Char.toLower

/-- Lexicographic byte comparison `strings.Compare(a, b) < 0`, as a
strict-order Boolean on character lists. -/
def ltString : List Char → List Char → Bool
  | [], [] => false
  | [], _ :: _ => true
  | _ :: _, [] => false
  | a :: as, b :: bs =>
      if a < b then true
      else if b < a then false
      else ltString as bs

/-- Comparator passed to `sort.Slice` in `listMarkdown`:
`strings.Compare(strings.ToLower(items[i].name), strings.ToLower(items[j].name)) < 0`. -/
def lessItem (a b : Item) : Bool :=
  ltString (goToLower a.name) (goToLower b.name)

/-- `filepath.Ext`: the suffix starting at the final dot of the name, or
`[]` when there is no dot. -/
def goExt (name : List Char) : List Char :=
  let k := (name.reverse.takeWhile (fun c => c != '.')).length
  if k = name.length then [] else name.drop (name.length - k - 1)

/-- Filtering and wrapping loop of `listMarkdown`, before the sort: keep
regular files whose lowercased extension is `.md` and whose stem is
non-empty, and wrap each stem as an unchecked item.  (Directory entries
that are not regular files are excluded by the caller-side filesystem
checks and are not part of `files`.) -/
def candidateItems (files : List (List Char)) : List Item :=
  match files with
  | [] => []
  | name :: rest =>
      let ext := goToLower (goExt name)
      if ext = ['.', 'm', 'd'] then
        let stem := name.take (name.length - (goExt name).length)
        if stem = [] then candidateItems rest
        else Item.mk stem false :: candidateItems rest
      else candidateItems rest

/-- Outcome relation of `func listMarkdown(dir string) ([]item, error)`:
`sort.Slice(items, less)` guarantees only that the result is a
permutation of the filtered items that is sorted for the comparator —
the Go documentation states the sort is not guaranteed to be stable, so
the order of items with equal keys is not determined.  `out` is any
possible result for the directory listing `files`. -/
def listMarkdownRel (files : List (List Char)) (out : List Item) : Prop :=
  out.Perm (candidateItems files) ∧
    out.Pairwise (fun a b => lessItem b a = false)

/-- Artifact state after `main` runs the interactive part: `prior` is
the content of `output.txt` before the run (`none` when absent).  `main`
returns before `runSelector` when the catalog is empty, returns without
writing when the selection is aborted, and calls `writeSelections` only
after a commit; a run still blocked on input has written nothing. -/
def mainArtifact (items : List Item) (prior : Option (List Char)) (h0 : Int)
    (events : List Event) : Option (List Char) :=
  if items.length = 0 then prior
  else
    match runEvents (initState items h0) events with
    | .aborted => prior
    | .committed out => some (writeSelections out).1
    | .running _ => prior

theorem viewHeightOf_pos (h : Int) : 1 ≤ viewHeightOf h := by
  simp only [viewHeightOf]
  split_ifs <;> omega

theorem ensureVisible_mem (cursor offset viewHeight total : Int)
    (hv : 1 ≤ viewHeight) (hc0 : 0 ≤ cursor) (hct : cursor < total) :
    ensureVisible cursor offset viewHeight total ≤ cursor ∧
      cursor ≤ ensureVisible cursor offset viewHeight total + viewHeight - 1 := by
  simp only [ensureVisible, goMax]
  split_ifs <;> omega

theorem toggleAt_map_name (l : List Item) (i : Nat) :
    (toggleAt l i).map Item.name = l.map Item.name := by
  induction l generalizing i with
  | nil => rfl
  | cons it rest ih =>
      cases i with
      | zero => simp [toggleAt]
      | succ j => simp [toggleAt, ih]

theorem step_next_names {s s2 : SelState} {e : Event} (h : step s e = .next s2) :
    s2.items.map Item.name = s.items.map Item.name := by
  cases e with
  | keyEscape => exact StepResult.noConfusion h
  | keyCtrlC => exact StepResult.noConfusion h
  | keyEnter => exact StepResult.noConfusion h
  | keyUp =>
      simp only [step, afterKey, StepResult.next.injEq] at h
      subst h; rfl
  | keyDown =>
      simp only [step, afterKey, StepResult.next.injEq] at h
      subst h; rfl
  | keyRune c =>
      simp only [step] at h
      split_ifs at h <;>
        first
          | exact StepResult.noConfusion h
          | (simp only [afterKey, StepResult.next.injEq] at h
             subst h
             first
               | rfl
               | simp [toggleAt_map_name])
  | resize h2 =>
      simp only [step, StepResult.next.injEq] at h
      subst h; rfl
  | otherEvent =>
      simp only [step, StepResult.next.injEq] at h
      subst h; rfl

theorem step_next_length {s s2 : SelState} {e : Event} (h : step s e = .next s2) :
    s2.items.length = s.items.length := by
  have := congrArg List.length (step_next_names h)
  simpa using this

theorem step_next_cursor {s s2 : SelState} {e : Event}
    (hc0 : 0 ≤ s.cursor) (hlt : s.cursor < (s.items.length : Int))
    (h : step s e = .next s2) :
    0 ≤ s2.cursor ∧ s2.cursor < (s2.items.length : Int) := by
  have hlen : s2.items.length = s.items.length := step_next_length h
  rw [hlen]
  cases e with
  | keyEscape => exact StepResult.noConfusion h
  | keyCtrlC => exact StepResult.noConfusion h
  | keyEnter => exact StepResult.noConfusion h
  | keyUp =>
      simp only [step, afterKey, StepResult.next.injEq] at h
      subst h
      dsimp only
      constructor <;> (split_ifs <;> omega)
  | keyDown =>
      simp only [step, afterKey, StepResult.next.injEq] at h
      subst h
      dsimp only
      constructor <;> (split_ifs <;> omega)
  | keyRune c =>
      simp only [step] at h
      split_ifs at h <;>
        first
          | exact StepResult.noConfusion h
          | (simp only [afterKey, StepResult.next.injEq] at h
             subst h
             dsimp only
             constructor <;> omega)
  | resize h2 =>
      simp only [step, StepResult.next.injEq] at h
      subst h
      exact ⟨hc0, hlt⟩
  | otherEvent =>
      simp only [step, StepResult.next.injEq] at h
      subst h
      exact ⟨hc0, hlt⟩

theorem step_key_offset {s s2 : SelState} {e : Event}
    (hkey : e = .keyUp ∨ e = .keyDown ∨ ∃ c, e = .keyRune c)
    (h : step s e = .next s2) :
    s2.offset =
        ensureVisible s2.cursor s.offset (viewHeightOf s.height)
          (s2.items.length : Int)
      ∧ s2.height = s.height := by
  rcases hkey with rfl | rfl | ⟨c, rfl⟩
  · simp only [step, afterKey, StepResult.next.injEq] at h
    subst h; exact ⟨rfl, rfl⟩
  · simp only [step, afterKey, StepResult.next.injEq] at h
    subst h; exact ⟨rfl, rfl⟩
  · simp only [step] at h
    split_ifs at h <;>
      first
        | exact StepResult.noConfusion h
        | (simp only [afterKey, StepResult.next.injEq] at h
           subst h; exact ⟨rfl, rfl⟩)

theorem step_committed_eq {s : SelState} {e : Event} {out : List Item}
    (h : step s e = .committed out) : out = s.items := by
  cases e with
  | keyEnter =>
      simp only [step, StepResult.committed.injEq] at h
      exact h.symm
  | keyRune c =>
      simp only [step] at h
      split_ifs at h <;> exact StepResult.noConfusion h
  | keyEscape => exact StepResult.noConfusion h
  | keyCtrlC => exact StepResult.noConfusion h
  | keyUp => exact StepResult.noConfusion h
  | keyDown => exact StepResult.noConfusion h
  | resize h2 => exact StepResult.noConfusion h
  | otherEvent => exact StepResult.noConfusion h

theorem step_aborted_iff (s : SelState) (e : Event) :
    step s e = .aborted ↔
      e = .keyEscape ∨ e = .keyCtrlC ∨ e = .keyRune 'q' ∨ e = .keyRune 'Q' := by
  cases e with
  | keyRune c =>
      simp only [step]
      split_ifs with hq <;> simp [afterKey] <;> try tauto
  | keyEscape => simp [step]
  | keyCtrlC => simp [step]
  | keyUp => simp [step, afterKey]
  | keyDown => simp [step, afterKey]
  | keyEnter => simp [step]
  | resize h2 => simp [step]
  | otherEvent => simp [step]

theorem runEvents_append (s : SelState) (l1 l2 : List Event) :
    runEvents s (l1 ++ l2) =
      match runEvents s l1 with
      | .running s2 => runEvents s2 l2
      | .committed its => .committed its
      | .aborted => .aborted := by
  induction l1 generalizing s with
  | nil => rfl
  | cons e rest ih =>
      cases h : step s e <;> simp [runEvents, h, ih]

theorem runEvents_running_names {events : List Event} :
    ∀ {s s2 : SelState}, runEvents s events = .running s2 →
      s2.items.map Item.name = s.items.map Item.name := by
  induction events with
  | nil =>
      intro s s2 h
      simp only [runEvents, RunResult.running.injEq] at h
      subst h; rfl
  | cons e rest ih =>
      intro s s2 h
      simp only [runEvents] at h
      cases hs : step s e <;> rw [hs] at h
      · exact (ih h).trans (step_next_names hs)
      · exact RunResult.noConfusion h
      · exact RunResult.noConfusion h

theorem runEvents_running_cursor {events : List Event} :
    ∀ {s s2 : SelState}, 0 ≤ s.cursor → s.cursor < (s.items.length : Int) →
      runEvents s events = .running s2 →
      0 ≤ s2.cursor ∧ s2.cursor < (s2.items.length : Int) := by
  induction events with
  | nil =>
      intro s s2 hc0 hlt h
      simp only [runEvents, RunResult.running.injEq] at h
      subst h; exact ⟨hc0, hlt⟩
  | cons e rest ih =>
      intro s s2 hc0 hlt h
      simp only [runEvents] at h
      cases hs : step s e <;> rw [hs] at h
      · obtain ⟨h1, h2⟩ := step_next_cursor hc0 hlt hs
        exact ih h1 h2 h
      · exact RunResult.noConfusion h
      · exact RunResult.noConfusion h

theorem runEvents_committed_names {events : List Event} :
    ∀ {s : SelState} {out : List Item}, runEvents s events = .committed out →
      out.map Item.name = s.items.map Item.name := by
  induction events with
  | nil => intro s out h; exact RunResult.noConfusion h
  | cons e rest ih =>
      intro s out h
      simp only [runEvents] at h
      cases hs : step s e <;> rw [hs] at h
      · exact (ih h).trans (step_next_names hs)
      · rename_i its
        simp only [RunResult.committed.injEq] at h
        subst h
        rw [step_committed_eq hs]
      · exact RunResult.noConfusion h

theorem ensureVisible_zero (vh : Int) : ensureVisible 0 0 vh 0 = 0 := by
  simp only [ensureVisible, goMax]
  split_ifs <;> omega

/-- C2: `ensureVisible` computes exactly the offset described by the spec
(reveal the cursor, then clamp into `[0, max 0 (total - viewHeight)]`;
0 when the view height is non-positive), and the three worked examples
from the spec hold. -/
theorem ensureVisible_spec_and_examples :
    (∀ cursor offset viewHeight total : Int,
        ensureVisible cursor offset viewHeight total =
          ensureVisibleSpec cursor offset viewHeight total)
    ∧ ensureVisible 0 5 3 10 = 0
    ∧ ensureVisible 9 0 3 10 = 7
    ∧ ensureVisible 2 0 10 3 = 0 := by
  refine ⟨fun cursor offset viewHeight total => ?_, by decide, by decide, by decide⟩
  simp only [ensureVisible, ensureVisibleSpec, goMax, Int.max_def, Int.min_def]
  split_ifs <;> omega

/-- C3: for every non-empty catalog, after any sequence of events the
loop handles, the cursor stays in `[0, len-1]`; moreover move-up
decrements the cursor only when it is positive, move-down increments it
only below `len-1`, and toggle leaves it unchanged. -/
theorem cursor_stays_in_range (initial : List Item) (h0 : Int)
    (events : List Event) (hne : initial ≠ []) :
    (∀ s, runEvents (initState initial h0) events = .running s →
        0 ≤ s.cursor ∧ s.cursor ≤ (initial.length : Int) - 1)
    ∧ (∀ s s2 : SelState, step s .keyUp = .next s2 →
        s2.cursor = if s.cursor > 0 then s.cursor - 1 else s.cursor)
    ∧ (∀ s s2 : SelState, step s .keyDown = .next s2 →
        s2.cursor =
          if s.cursor < (s.items.length : Int) - 1 then s.cursor + 1 else s.cursor)
    ∧ (∀ s s2 : SelState, step s (.keyRune ' ') = .next s2 → s2.cursor = s.cursor) := by
  refine ⟨?_, ?_, ?_, ?_⟩
  · intro s h
    have hlen0 : 0 < initial.length := List.length_pos.mpr hne
    have hv := runEvents_running_cursor (s := initState initial h0)
      (by simp [initState]) (by simp [initState]; exact_mod_cast hlen0) h
    have hn := runEvents_running_names h
    have hl : s.items.length = initial.length := by
      simpa [initState] using congrArg List.length hn
    obtain ⟨h1, h2⟩ := hv
    rw [hl] at h2
    omega
  · intro s s2 h
    simp only [step, afterKey, StepResult.next.injEq] at h
    subst h; rfl
  · intro s s2 h
    simp only [step, afterKey, StepResult.next.injEq] at h
    subst h; rfl
  · intro s s2 h
    have hstep : step s (.keyRune ' ') =
        afterKey s s.cursor
          (if 0 < s.items.length then toggleAt s.items s.cursor.toNat
           else s.items) := by
      simp [step]
    rw [hstep] at h
    simp only [afterKey, StepResult.next.injEq] at h
    subst h; rfl

theorem cursor_stays_in_range_witness :
    0 ≤ (initState [Item.mk ['a'] false] 10).cursor ∧
      (initState [Item.mk ['a'] false] 10).cursor ≤
        (([Item.mk ['a'] false] : List Item).length : Int) - 1 :=
  (cursor_stays_in_range [Item.mk ['a'] false] 10 [Event.keyDown] (by decide)).1
    (initState [Item.mk ['a'] false] 10) (by decide)

/-- C1 (amended): after every key event the loop handles — with the view
height used at the corresponding redraw — the cursor lies within the
visible window, `offset ≤ cursor ≤ offset + viewHeight - 1`.  A resize
event does not re-run `ensureVisible`, so the invariant is only
guaranteed after key events (see the counterexample for resize). -/
theorem viewport_invariant_after_key_event (initial : List Item) (h0 : Int)
    (events : List Event) (e : Event) (s : SelState)
    (hne : initial ≠ [])
    (hkey : e = .keyUp ∨ e = .keyDown ∨ ∃ c, e = .keyRune c)
    (hrun : runEvents (initState initial h0) (events ++ [e]) = .running s) :
    s.offset ≤ s.cursor ∧ s.cursor ≤ s.offset + viewHeightOf s.height - 1 := by
  rw [runEvents_append] at hrun
  cases h1 : runEvents (initState initial h0) events <;> rw [h1] at hrun
  case committed its => exact RunResult.noConfusion hrun
  case aborted => exact RunResult.noConfusion hrun
  case running s1 =>
    simp only [runEvents] at hrun
    cases hs : step s1 e <;> rw [hs] at hrun
    case committed => exact RunResult.noConfusion hrun
    case aborted => exact RunResult.noConfusion hrun
    case next s2 =>
      simp only [runEvents, RunResult.running.injEq] at hrun
      subst hrun
      have hlen0 : 0 < initial.length := List.length_pos.mpr hne
      have hv1 := runEvents_running_cursor (s := initState initial h0)
        (by simp [initState]) (by simp [initState]; exact_mod_cast hlen0) h1
      obtain ⟨hc0, hclt⟩ := step_next_cursor hv1.1 hv1.2 hs
      obtain ⟨hoff, hh⟩ := step_key_offset hkey hs
      rw [hoff, hh]
      exact ensureVisible_mem s2.cursor s1.offset (viewHeightOf s1.height)
        (s2.items.length : Int) (viewHeightOf_pos s1.height) hc0 hclt

theorem viewport_invariant_after_key_event_witness :
    (SelState.mk [Item.mk ['a'] false] 0 0 10).offset ≤
        (SelState.mk [Item.mk ['a'] false] 0 0 10).cursor
      ∧ (SelState.mk [Item.mk ['a'] false] 0 0 10).cursor ≤
        (SelState.mk [Item.mk ['a'] false] 0 0 10).offset +
          viewHeightOf (SelState.mk [Item.mk ['a'] false] 0 0 10).height - 1 :=
  viewport_invariant_after_key_event [Item.mk ['a'] false] 10 [] Event.keyUp
    (SelState.mk [Item.mk ['a'] false] 0 0 10) (by decide) (Or.inl rfl) (by decide)

set_option maxRecDepth 8192 in
/-- C1 counterexample: on a catalog of 10 items, after nine move-down
events at terminal height 12 (view height 10) followed by a resize to
height 5 (view height 3), the loop state has `cursor = 9` and
`offset = 0`, so at the redraw following the resize the cursor is
outside the visible window: the viewport invariant does not hold after
resize notifications. -/
theorem viewport_invariant_resize_cex :
    runEvents (initState (List.replicate 10 (Item.mk ['x'] false)) 12)
        (List.replicate 9 Event.keyDown ++ [Event.resize 5]) =
      .running (SelState.mk (List.replicate 10 (Item.mk ['x'] false)) 9 0 5)
    ∧ ¬ ((SelState.mk (List.replicate 10 (Item.mk ['x'] false)) 9 0 5).offset ≤
            (SelState.mk (List.replicate 10 (Item.mk ['x'] false)) 9 0 5).cursor
          ∧ (SelState.mk (List.replicate 10 (Item.mk ['x'] false)) 9 0 5).cursor ≤
            (SelState.mk (List.replicate 10 (Item.mk ['x'] false)) 9 0 5).offset +
              viewHeightOf
                (SelState.mk (List.replicate 10 (Item.mk ['x'] false)) 9 0 5).height -
              1) := by
  decide

/-- C10: the selector loop works on its own copy of the caller's item
slice; the catalog it returns on commit (and the state it carries while
running) can differ from the caller's list only in checked flags — the
names and their order are exactly those of the input, so the caller's
items are never restructured by the loop. -/
theorem selector_private_copy (initial : List Item) (h0 : Int)
    (events : List Event) :
    (∀ out, runEvents (initState initial h0) events = .committed out →
        out.map Item.name = initial.map Item.name)
    ∧ (∀ s, runEvents (initState initial h0) events = .running s →
        s.items.map Item.name = initial.map Item.name) := by
  constructor
  · intro out h
    simpa [initState] using runEvents_committed_names h
  · intro s h
    simpa [initState] using runEvents_running_names h

theorem selector_private_copy_witness :
    ([Item.mk ['a'] true] : List Item).map Item.name =
      ([Item.mk ['a'] false] : List Item).map Item.name :=
  (selector_private_copy [Item.mk ['a'] false] 10
      [Event.keyRune ' ', Event.keyEnter]).1 [Item.mk ['a'] true] (by decide)

/-- C8: when the selector run aborts (Escape, Ctrl-C, `q` or `Q` — and
those are exactly the events that abort an iteration), the persistence
writer is never invoked: the output artifact keeps its prior content. -/
theorem abort_skips_persistence (items : List Item) (prior : Option (List Char))
    (h0 : Int) (events : List Event)
    (hab : runEvents (initState items h0) events = .aborted) :
    mainArtifact items prior h0 events = prior
    ∧ ∀ (s : SelState) (e : Event),
        step s e = .aborted ↔
          (e = .keyEscape ∨ e = .keyCtrlC ∨ e = .keyRune 'q' ∨ e = .keyRune 'Q') := by
  refine ⟨?_, step_aborted_iff⟩
  simp only [mainArtifact]
  split_ifs with h
  · rfl
  · rw [hab]

theorem abort_skips_persistence_witness :
    mainArtifact [Item.mk ['a'] false] (some ['z']) 10 [Event.keyEscape] =
      some ['z'] :=
  (abort_skips_persistence [Item.mk ['a'] false] (some ['z']) 10
      [Event.keyEscape] (by decide)).1

/-- C9: with an empty catalog the selector loop treats move and toggle
events as no-ops, commit and cancel remain available, and a commit
yields the empty catalog, which the writer turns into zero written
entries and zero-byte content. -/
theorem empty_catalog_commit_ok (h0 : Int) (events : List Event) :
    (∀ (s : SelState) (e : Event), s.items = [] → s.cursor = 0 → s.offset = 0 →
        (e = .keyUp ∨ e = .keyDown ∨ e = .keyRune 'k' ∨ e = .keyRune 'j' ∨
            e = .keyRune ' ') →
        step s e = .next s)
    ∧ (∀ s : SelState, s.items = [] → step s .keyEnter = .committed [])
    ∧ (∀ s : SelState, step s .keyEscape = .aborted)
    ∧ (∀ out, runEvents (initState [] h0) events = .committed out →
        out = [] ∧ writeSelections out = ([], 0)) := by
  refine ⟨?_, ?_, fun s => rfl, ?_⟩
  · intro s e h1 h2 h3 hk
    obtain ⟨its, cur, off, hh⟩ := s
    simp only at h1 h2 h3
    subst h1; subst h2; subst h3
    rcases hk with rfl | rfl | rfl | rfl | rfl <;>
      simp [step, afterKey, ensureVisible_zero]
  · intro s h1
    obtain ⟨its, cur, off, hh⟩ := s
    simp only at h1
    subst h1
    rfl
  · intro out h
    have hn := runEvents_committed_names h
    simp [initState] at hn
    obtain rfl : out = [] := by
      cases out with
      | nil => rfl
      | cons a b => simp at hn
    exact ⟨rfl, rfl⟩

theorem empty_catalog_commit_ok_witness :
    ([] : List Item) = [] ∧ writeSelections [] = ([], 0) :=
  (empty_catalog_commit_ok 10 [Event.keyEnter]).2.2.2 [] (by decide)

theorem writeSelections_foldl (items : List Item) (b : List Char) (c : Nat) :
    items.foldl
        (fun acc it =>
          if it.checked then (acc.1 ++ it.name ++ ['\n'], acc.2 + 1) else acc)
        (b, c) =
      (b ++ selectionContent items, c + checkedCount items) := by
  induction items generalizing b c with
  | nil => simp [selectionContent, checkedCount]
  | cons it rest ih =>
      rw [List.foldl_cons]
      by_cases h : it.checked
      · rw [if_pos h, ih]
        simp [selectionContent, checkedCount, List.filter_cons, h]
        omega
      · rw [if_neg h, ih]
        simp [selectionContent, checkedCount, List.filter_cons, h]

theorem writeSelections_eq (items : List Item) :
    writeSelections items = (selectionContent items, checkedCount items) := by
  simpa [writeSelections] using writeSelections_foldl items [] 0

/-- C6: the persistence writer emits exactly one line per checked item,
in catalog order, each name followed by a single `'\n'`, with nothing
else in the content, and returns the number of checked items; a catalog
with no checked item gives empty content and count 0. -/
theorem writer_content_and_count (items : List Item) :
    writeSelections items = (selectionContent items, checkedCount items)
    ∧ ((∀ it ∈ items, it.checked = false) → writeSelections items = ([], 0)) := by
  refine ⟨writeSelections_eq items, fun h => ?_⟩
  rw [writeSelections_eq]
  have hf : items.filter (fun it => it.checked) = [] :=
    List.filter_eq_nil_iff.mpr (fun a ha => by simp [h a ha])
  simp [selectionContent, checkedCount, hf]

theorem writer_content_and_count_witness :
    writeSelections [Item.mk ['a'] false] = ([], 0) :=
  (writer_content_and_count [Item.mk ['a'] false]).2 (by decide)

theorem scanLinesAux_line (name : List Char) (hn : '\n' ∉ name) :
    ∀ cur rest : List Char,
      scanLinesAux cur (name ++ '\n' :: rest) =
        dropCR (cur.reverse ++ name) :: scanLinesAux [] rest := by
  induction name with
  | nil => intro cur rest; simp [scanLinesAux]
  | cons c cs ih =>
      intro cur rest
      have hc : ¬c = '\n' := fun hh => hn (by simp [hh])
      simp only [List.cons_append, scanLinesAux, if_neg hc, List.append_eq]
      rw [ih (fun hh => hn (List.mem_cons_of_mem _ hh)) (c :: cur) rest]
      simp

theorem scanLines_flattenLines (names : List (List Char))
    (h : ∀ n ∈ names, n ≠ [] ∧ '\n' ∉ n ∧ dropCR n = n) :
    scanLines ((names.map (fun n => n ++ ['\n'])).flatten) = names := by
  induction names with
  | nil => rfl
  | cons n rest ih =>
      obtain ⟨h1, h2, h3⟩ := h n (by simp)
      have hsh : (n ++ ['\n']) ++ (rest.map (fun m => m ++ ['\n'])).flatten =
          n ++ '\n' :: (rest.map (fun m => m ++ ['\n'])).flatten := by simp
      simp only [List.map_cons, List.flatten_cons]
      rw [scanLines, hsh, scanLinesAux_line n h2]
      rw [List.reverse_nil, List.nil_append, h3]
      exact congrArg _ (ih (fun m hm => h m (List.mem_cons_of_mem _ hm)))

theorem goTrimSpace_last_not_space {n : List Char} {c : Char}
    (h : goTrimSpace n = n) (hl : n.getLast? = some c) :
    goIsSpace c = false := by
  by_contra hc
  have hc2 : goIsSpace c = true := by
    cases hcc : goIsSpace c
    · exact absurd hcc hc
    · rfl
  have hlen : n.length ≤ ((n.dropWhile goIsSpace).reverse.dropWhile
      goIsSpace).reverse.length := by
    rw [goTrimSpace] at h
    rw [h]
  rw [List.length_reverse] at hlen
  have hinner : (n.dropWhile goIsSpace).length ≤ n.length :=
    (List.dropWhile_sublist goIsSpace).length_le
  by_cases hi : n.dropWhile goIsSpace = []
  · rw [hi] at hlen
    simp at hlen
    rw [hlen] at hl
    exact Option.noConfusion hl
  · obtain ⟨d, t, hdt⟩ := List.exists_cons_of_ne_nil
      (fun hh => hi (by rwa [← List.reverse_eq_nil_iff])) (l := (n.dropWhile goIsSpace).reverse)
    have hd : d = c := by
      have hrev : n.reverse =
          (n.dropWhile goIsSpace).reverse ++ (n.takeWhile goIsSpace).reverse := by
        rw [← List.reverse_append, List.takeWhile_append_dropWhile]
      have : n.reverse.head? = some d := by
        rw [hrev, hdt]
        rfl
      rw [List.head?_reverse, hl] at this
      exact (Option.some.inj this).symm
    subst hd
    have hdrop : ((n.dropWhile goIsSpace).reverse.dropWhile goIsSpace).length ≤
        t.length := by
      rw [hdt, List.dropWhile_cons_of_pos hc2]
      exact (List.dropWhile_sublist goIsSpace).length_le
    have ht : t.length + 1 = (n.dropWhile goIsSpace).length := by
      have := congrArg List.length hdt
      simpa using this.symm
    omega

theorem dropCR_of_trim_eq {n : List Char} (h : goTrimSpace n = n) :
    dropCR n = n := by
  rw [dropCR]
  split_ifs with hl
  · have := goTrimSpace_last_not_space h hl
    simp [goIsSpace] at this
  · rfl

theorem lastIdxOf_eq_none {items : List Item} {n : List Char} :
    lastIdxOf items n = none ↔ n ∉ items.map Item.name := by
  induction items with
  | nil => simp [lastIdxOf]
  | cons it rest ih =>
      simp only [lastIdxOf, List.map_cons, List.mem_cons]
      cases h : lastIdxOf rest n with
      | some j =>
          have hmem : n ∈ rest.map Item.name := by
            by_contra hc
            have := ih.mpr hc
            rw [h] at this
            exact Option.noConfusion this
          simp [hmem]
      | none =>
          have hmem : n ∉ rest.map Item.name := ih.mp h
          split_ifs with he
          · simp [he]
          · have h2 : ¬n = it.name := fun hh => he hh.symm
            simp [hmem, h2]

theorem lastIdxOf_name {items : List Item} {n : List Char} :
    ∀ {i : Nat}, lastIdxOf items n = some i →
      ∃ hi : i < items.length, (items.get ⟨i, hi⟩).name = n := by
  induction items with
  | nil => intro i h; exact Option.noConfusion h
  | cons it rest ih =>
      intro i h
      simp only [lastIdxOf] at h
      cases hr : lastIdxOf rest n with
      | some j =>
          rw [hr] at h
          obtain rfl : j + 1 = i := Option.some.inj h
          obtain ⟨hj, hget⟩ := ih hr
          exact ⟨by simpa using Nat.succ_lt_succ hj, by simpa using hget⟩
      | none =>
          rw [hr] at h
          split_ifs at h with he
          obtain rfl : (0 : Nat) = i := Option.some.inj h
          exact ⟨by simp, he⟩

theorem setCheckedAt_map_name (items : List Item) (i : Nat) :
    (setCheckedAt items i).map Item.name = items.map Item.name := by
  induction items generalizing i with
  | nil => rfl
  | cons it rest ih =>
      cases i with
      | zero => simp [setCheckedAt]
      | succ j => simp [setCheckedAt, ih]

theorem map_cond_eq_self {items : List Item} {n : List Char}
    (h : ∀ it ∈ items, it.name ≠ n) :
    items.map (fun it => if it.name = n then Item.mk it.name true else it) =
      items := by
  induction items with
  | nil => rfl
  | cons it rest ih =>
      rw [List.map_cons, if_neg (h it (by simp)),
        ih (fun a ha => h a (List.mem_cons_of_mem _ ha))]

theorem map_cond_map_name (items : List Item) (n : List Char) :
    (items.map (fun it => if it.name = n then Item.mk it.name true else it)).map
        Item.name = items.map Item.name := by
  rw [List.map_map]
  apply List.map_congr_left
  intro a _
  by_cases hc : a.name = n
  · simp [hc]
  · simp [hc]

theorem setCheckedAt_eq_map {items : List Item} {n : List Char} :
    ∀ {i : Nat}, (items.map Item.name).Nodup → lastIdxOf items n = some i →
      setCheckedAt items i =
        items.map (fun it => if it.name = n then Item.mk it.name true else it) := by
  induction items with
  | nil => intro i _ h; exact Option.noConfusion h
  | cons it rest ih =>
      intro i hnd h
      simp only [List.map_cons, List.nodup_cons] at hnd
      obtain ⟨hni, hndr⟩ := hnd
      simp only [lastIdxOf] at h
      cases hr : lastIdxOf rest n with
      | some j =>
          rw [hr] at h
          obtain rfl : j + 1 = i := Option.some.inj h
          have hmem : n ∈ rest.map Item.name := by
            obtain ⟨hj, hget⟩ := lastIdxOf_name hr
            exact List.mem_map.mpr ⟨rest.get ⟨j, hj⟩, List.get_mem rest j hj, hget⟩
          have hit : ¬it.name = n := fun hh => hni (by rw [hh]; exact hmem)
          simp only [setCheckedAt, List.map_cons, if_neg hit]
          rw [ih hndr hr]
      | none =>
          rw [hr] at h
          split_ifs at h with he
          obtain rfl : (0 : Nat) = i := Option.some.inj h
          have hmem : n ∉ rest.map Item.name := lastIdxOf_eq_none.mp hr
          simp only [setCheckedAt, List.map_cons, if_pos he]
          rw [map_cond_eq_self
            (fun a ha hh => hmem (by rw [← hh]; exact List.mem_map_of_mem _ ha))]

theorem applyLines_error_iff (lines : List (List Char)) :
    ∀ (items : List Item) (e : List Char),
      applyLines items lines = .error e ↔
        firstUnknown (items.map Item.name) lines = some e := by
  induction lines with
  | nil => intro items e; simp [applyLines, firstUnknown]
  | cons line rest ih =>
      intro items e
      simp only [applyLines, firstUnknown]
      by_cases hb : goTrimSpace line = []
      · rw [if_pos hb, if_pos hb]
        exact ih items e
      · rw [if_neg hb, if_neg hb]
        split
        · rename_i heq
          have hmem : goTrimSpace line ∉ items.map Item.name :=
            lastIdxOf_eq_none.mp heq
          rw [if_neg hmem]
          simp
        · rename_i i heq
          have hmem : goTrimSpace line ∈ items.map Item.name := by
            by_contra hc
            have := lastIdxOf_eq_none.mpr hc
            rw [heq] at this
            exact Option.noConfusion this
          rw [if_pos hmem, ← setCheckedAt_map_name items i]
          exact ih (setCheckedAt items i) e

theorem firstUnknown_eq_none {names lines : List (List Char)} :
    firstUnknown names lines = none ↔
      ∀ line ∈ lines, goTrimSpace line = [] ∨ goTrimSpace line ∈ names := by
  induction lines with
  | nil => simp [firstUnknown]
  | cons line rest ih =>
      simp only [firstUnknown, List.mem_cons]
      split_ifs with hb hm
      · rw [ih]
        constructor
        · intro h l hl
          rcases hl with rfl | hl
          · exact Or.inl hb
          · exact h l hl
        · intro h l hl
          exact h l (Or.inr hl)
      · rw [ih]
        constructor
        · intro h l hl
          rcases hl with rfl | hl
          · exact Or.inr hm
          · exact h l hl
        · intro h l hl
          exact h l (Or.inr hl)
      · constructor
        · intro h
          exact h.elim
        · intro h
          rcases h line (Or.inl rfl) with hh | hh
          · exact absurd hh hb
          · exact absurd hh hm

theorem applyLines_ok (lines : List (List Char)) :
    ∀ items : List Item, (items.map Item.name).Nodup →
      (∀ line ∈ lines,
        goTrimSpace line = [] ∨ goTrimSpace line ∈ items.map Item.name) →
      applyLines items lines =
        .ok (items.map (fun it =>
          if it.name ∈ nonblankLines lines then Item.mk it.name true else it)) := by
  induction lines with
  | nil =>
      intro items _ _
      simp [applyLines, nonblankLines]
  | cons line rest ih =>
      intro items hnd hall
      simp only [applyLines]
      by_cases hb : goTrimSpace line = []
      · have hnb : nonblankLines (line :: rest) = nonblankLines rest := by
          simp [nonblankLines, List.filter_cons, hb]
        rw [if_pos hb, ih items hnd (fun l hl => hall l (List.mem_cons_of_mem _ hl))]
        simp only [hnb]
      · have hnb : nonblankLines (line :: rest) =
            goTrimSpace line :: nonblankLines rest := by
          simp only [nonblankLines, List.map_cons, List.filter_cons]
          rw [if_pos]
          simp [List.isEmpty_iff, hb]
        rw [if_neg hb]
        rcases hall line (by simp) with hblank | hmem
        · exact absurd hblank hb
        · split
          · rename_i heq
            exact absurd (lastIdxOf_eq_none.mp heq) (by simp [hmem])
          · rename_i i heq
            rw [setCheckedAt_eq_map hnd heq]
            rw [ih _ (by rw [map_cond_map_name]; exact hnd)
              (by rw [map_cond_map_name]
                  exact fun l hl => hall l (List.mem_cons_of_mem _ hl))]
            simp only [List.map_map, hnb]
            refine congrArg Except.ok (List.map_congr_left ?_)
            intro a _
            by_cases hc : a.name = goTrimSpace line
            · simp [Function.comp, hc]
            · simp [Function.comp, hc]

/-- C4: reconciliation of persisted lines against a catalog with
pairwise-distinct names: an absent file returns the catalog unchanged;
the result is an error exactly when some non-blank trimmed line matches
no catalog name, and the error names the first such line in file order;
on success exactly the items named by the non-blank trimmed lines are
switched to checked and every other item keeps its prior flag. -/
theorem reconcile_contract (items : List Item)
    (hnd : (items.map Item.name).Nodup) :
    applyPreviousSelections items none = .ok items
    ∧ (∀ s e : List Char,
        applyPreviousSelections items (some s) = .error e ↔
          firstUnknown (items.map Item.name) (scanLines s) = some e)
    ∧ (∀ s : List Char,
        firstUnknown (items.map Item.name) (scanLines s) = none →
          applyPreviousSelections items (some s) =
            .ok (items.map (fun it =>
              if it.name ∈ nonblankLines (scanLines s) then Item.mk it.name true
              else it))) := by
  refine ⟨rfl, ?_, ?_⟩
  · intro s e
    exact applyLines_error_iff (scanLines s) items e
  · intro s hno
    exact applyLines_ok (scanLines s) items hnd (firstUnknown_eq_none.mp hno)

theorem reconcile_contract_witness :
    applyPreviousSelections [Item.mk ['a'] false] none =
      .ok [Item.mk ['a'] false] :=
  (reconcile_contract [Item.mk ['a'] false] (by decide)).1

/-- C5 (amended): the write/reconcile round-trip restores exactly the
original checked set for every catalog whose item names are pairwise
distinct, non-empty, contain no newline character, and are unchanged by
whitespace trimming (reconciliation trims each persisted line, so names
with surrounding whitespace cannot survive the trip — see the
counterexample). -/
theorem roundtrip_preserves_checked (items : List Item)
    (hnd : (items.map Item.name).Nodup)
    (hgood : ∀ it ∈ items,
      it.name ≠ [] ∧ '\n' ∉ it.name ∧ goTrimSpace it.name = it.name) :
    applyPreviousSelections (items.map (fun it => Item.mk it.name false))
        (some (writeSelections items).1) = .ok items := by
  have hcontent : (writeSelections items).1 = selectionContent items := by
    rw [writeSelections_eq]
  have hgoodcn : ∀ n ∈ (items.filter (fun it => it.checked)).map Item.name,
      n ≠ [] ∧ '\n' ∉ n ∧ goTrimSpace n = n := by
    intro n hn
    obtain ⟨b, hb, rfl⟩ := List.mem_map.mp hn
    exact hgood b (List.mem_of_mem_filter hb)
  have hscan : scanLines (selectionContent items) =
      (items.filter (fun it => it.checked)).map Item.name := by
    apply scanLines_flattenLines
    intro n hn
    obtain ⟨h1, h2, h3⟩ := hgoodcn n hn
    exact ⟨h1, h2, dropCR_of_trim_eq h3⟩
  have hfresh : (items.map (fun it => Item.mk it.name false)).map Item.name =
      items.map Item.name := by
    simp [List.map_map, Function.comp]
  show applyLines (items.map (fun it => Item.mk it.name false))
      (scanLines (writeSelections items).1) = .ok items
  rw [hcontent, hscan]
  rw [applyLines_ok ((items.filter (fun it => it.checked)).map Item.name)
    (items.map (fun it => Item.mk it.name false))
    (by rw [hfresh]; exact hnd)
    (by intro l hl
        obtain ⟨hne, hnl, htr⟩ := hgoodcn l hl
        right
        rw [htr, hfresh]
        obtain ⟨b, hb, rfl⟩ := List.mem_map.mp hl
        exact List.mem_map_of_mem _ (List.mem_of_mem_filter hb))]
  have hnb : nonblankLines ((items.filter (fun it => it.checked)).map Item.name) =
      (items.filter (fun it => it.checked)).map Item.name := by
    have h1 : ((items.filter (fun it => it.checked)).map Item.name).map goTrimSpace
        = (items.filter (fun it => it.checked)).map Item.name := by
      conv_rhs =>
        rw [← List.map_id ((items.filter (fun it => it.checked)).map Item.name)]
      exact List.map_congr_left (fun n hn => (hgoodcn n hn).2.2)
    simp only [nonblankLines, h1]
    apply List.filter_eq_self.mpr
    intro n hn
    simp [List.isEmpty_iff, (hgoodcn n hn).1]
  refine congrArg Except.ok ?_
  rw [List.map_map]
  conv_rhs => rw [← List.map_id items]
  apply List.map_congr_left
  intro a ha
  simp only [Function.comp, hnb]
  cases hch : a.checked with
  | true =>
      have hm : a.name ∈ (items.filter (fun it => it.checked)).map Item.name :=
        List.mem_map_of_mem _ (List.mem_filter.mpr ⟨ha, hch⟩)
      simp only [if_pos hm]
      cases a with
      | mk nm ck => simp only at hch; simp [hch]
  | false =>
      have hm : a.name ∉ (items.filter (fun it => it.checked)).map Item.name := by
        intro hc
        obtain ⟨b, hb, hbe⟩ := List.mem_map.mp hc
        have hb1 : b ∈ items := List.mem_of_mem_filter hb
        have hb2 : b.checked = true := (List.mem_filter.mp hb).2
        have hba : b = a := List.inj_on_of_nodup_map hnd hb1 ha hbe
        rw [hba, hch] at hb2
        exact Bool.noConfusion hb2
      simp only [if_neg hm]
      cases a with
      | mk nm ck => simp only at hch; simp [hch]

theorem roundtrip_preserves_checked_witness :
    applyPreviousSelections [Item.mk ['a'] false]
        (some (writeSelections [Item.mk ['a'] true]).1) =
      .ok [Item.mk ['a'] true] :=
  roundtrip_preserves_checked [Item.mk ['a'] true] (by decide) (by decide)

/-- C5 counterexample: for the catalog whose single item is named
`" a"` (leading space) and checked, the writer emits `" a\n"`, but
reconciling a fresh catalog with the same name against that content
trims the line to `"a"`, matches no catalog name and fails — the
round-trip does not succeed for every catalog. -/
theorem roundtrip_cex :
    applyPreviousSelections
        ([Item.mk [' ', 'a'] true].map (fun it => Item.mk it.name false))
        (some (writeSelections [Item.mk [' ', 'a'] true]).1) =
      .error ['a'] := by
  decide

theorem candidateItems_unchecked (files : List (List Char)) :
    ∀ it ∈ candidateItems files, it.checked = false := by
  induction files with
  | nil => intro it hit; simp [candidateItems] at hit
  | cons f rest ih =>
      intro it hit
      simp only [candidateItems] at hit
      split_ifs at hit with h1 h2
      · exact ih it hit
      · rcases List.mem_cons.mp hit with rfl | hmem
        · rfl
        · exact ih it hmem
      · exact ih it hit

theorem sorted_perm3_example (out : List Item)
    (hp : out.Perm [Item.mk ['B'] false, Item.mk ['a'] false, Item.mk ['C'] false])
    (hs : out.Pairwise (fun a b => lessItem b a = false)) :
    out = [Item.mk ['a'] false, Item.mk ['B'] false, Item.mk ['C'] false] := by
  have hlen : out.length = 3 := hp.length_eq
  obtain ⟨x, y, z, rfl⟩ : ∃ x y z, out = [x, y, z] := by
    cases out with
    | nil => simp at hlen
    | cons x t1 =>
        cases t1 with
        | nil => simp at hlen
        | cons y t2 =>
            cases t2 with
            | nil => simp at hlen
            | cons z t3 =>
                cases t3 with
                | nil => exact ⟨x, y, z, rfl⟩
                | cons w t4 => simp at hlen
  have hnd : List.Nodup [x, y, z] := hp.nodup_iff.mpr (by decide)
  have hx := hp.subset (show x ∈ [x, y, z] by simp)
  have hy := hp.subset (show y ∈ [x, y, z] by simp)
  have hz := hp.subset (show z ∈ [x, y, z] by simp)
  simp only [List.mem_cons, List.not_mem_nil, or_false] at hx hy hz
  rcases hx with rfl | rfl | rfl <;> rcases hy with rfl | rfl | rfl <;>
    rcases hz with rfl | rfl | rfl <;>
      first
        | rfl
        | exact absurd hnd (by decide)
        | exact absurd hs (by decide)

/-- C7 (amended): every admissible result of catalog construction wraps
each kept stem as an unchecked item and is sorted case-insensitively by
name under the `sort.Slice` comparator, and for the candidate files
`B.md`, `a.md`, `C.md` the result is exactly `a`, `B`, `C`; the order
of items whose case-insensitive keys are equal is not guaranteed,
because `sort.Slice` is not a stable sort (see the counterexample). -/
theorem catalog_construction (files : List (List Char)) (out : List Item)
    (h : listMarkdownRel files out) :
    (∀ it ∈ out, it.checked = false)
    ∧ out.Pairwise (fun a b => lessItem b a = false)
    ∧ (files = ["B.md".toList, "a.md".toList, "C.md".toList] →
        out = [Item.mk ['a'] false, Item.mk ['B'] false, Item.mk ['C'] false]) := by
  obtain ⟨hp, hs⟩ := h
  refine ⟨?_, hs, ?_⟩
  · intro it hit
    exact candidateItems_unchecked files it (hp.subset hit)
  · intro hf
    subst hf
    have hc : candidateItems ["B.md".toList, "a.md".toList, "C.md".toList] =
        [Item.mk ['B'] false, Item.mk ['a'] false, Item.mk ['C'] false] := by
      decide
    rw [hc] at hp
    exact sorted_perm3_example out hp hs

theorem catalog_construction_witness :
    ([Item.mk ['a'] false, Item.mk ['B'] false, Item.mk ['C'] false] :
        List Item) =
      [Item.mk ['a'] false, Item.mk ['B'] false, Item.mk ['C'] false] :=
  (catalog_construction ["B.md".toList, "a.md".toList, "C.md".toList]
      [Item.mk ['a'] false, Item.mk ['B'] false, Item.mk ['C'] false]
      ⟨by decide, by decide⟩).2.2 rfl

/-- C7 counterexample: for the candidate files `A.md`, `a.md`, whose
stems have equal case-insensitive keys, the order that reverses the
candidate order also satisfies the `sort.Slice` contract, so catalog
construction does not guarantee a stable order for equal keys. -/
theorem catalog_stability_cex :
    listMarkdownRel ["A.md".toList, "a.md".toList]
        [Item.mk ['a'] false, Item.mk ['A'] false]
    ∧ ([Item.mk ['a'] false, Item.mk ['A'] false] : List Item) ≠
        [Item.mk ['A'] false, Item.mk ['a'] false] :=
  ⟨⟨by decide, by decide⟩, by decide⟩

end MdSelector
